import Mathlib

/-!
Shallow embedding of the gate functions of `fc/gate.py` (FlowCal):
`start_end`, `high_low`, `ellipse` and `density2d`.

Numeric conventions: event coordinates and bin edges are modelled as exact
rationals for the computable gates; the `ellipse` gate, whose source uses
trigonometric and logarithmic functions, is modelled over the reals.
Python exceptions are modelled by `Except PyErr`.

External library calls are embedded by their documented semantics:
`np.digitize(x, bins) - 1` counts the edges that are at most `x`, minus one;
`np.histogram2d` assigns a point to the cell whose half-open interval
contains it, with the last cell closed on both ends;
`scipy.ndimage.filters.gaussian_filter` is a separable correlation with a
truncated symmetric kernel, taken here as an explicit weight-list parameter
`w` (the list of kernel weights that scipy derives from `sigma`), with
constant zero padding outside the grid;
`np.argsort(vD)[::-1]` is a sort of the flat cell indices by descending
density, realised by a deterministic insertion sort (the tie order of the
source sort is implementation defined).
-/

namespace FlowCal

/-- One event row of the N x D data array. -/
abbrev Row := List ℚ

/-- Python exceptions that the gate functions can raise.  The constructor
`internalInconsistency` names the typed error demanded by the specification;
the source never raises it. -/
inductive PyErr where
  | assertionError
  | valueError
  | indexError
  | internalInconsistency
deriving DecidableEq

/-- Boolean mask indexing `data[mask]` of numpy: keep the rows paired with
`true`, in order. -/
def boolSelect {α : Type} (data : List α) (mk : List Bool) : List α :=
  (data.zip mk).filterMap (fun rb => if rb.2 then some rb.1 else none)

/-- Index-based restatement of mask selection: the rows of `data` whose
index carries `true` in the mask, in ascending index order.  Used to state
that gating preserves the original row order. -/
def maskSelectSpec {α : Type} (d : α) (data : List α) (mk : List Bool) : List α :=
  (List.range data.length).filterMap
    (fun i => if mk.getD i false then some (data.getD i d) else none)

/-- Start of the python slice `mask[-ne:]` over an array of length `n`:
for `ne = 0` the slice `mask[-0:]` is `mask[0:]`, the whole array. -/
def negSliceStart (n ne : Nat) : Nat :=
  if ne = 0 then 0 else n - ne

/-- The mask of `gate.start_end`: it starts all `true`, then
`mask[:ns] = False` and `mask[-ne:] = False`. -/
def startEndMask (n ns ne : Nat) : List Bool :=
  (List.range n).map
    (fun i => !(decide (i < ns)) && !(decide (negSliceStart n ne ≤ i)))

/-- Embedding of `gate.start_end`: discard the first `ns` and last `ne`
events. -/
def start_end (data : List Row) (ns ne : Nat) :
    Except PyErr (List Row × List Bool) :=
  if data.length < ns + ne then .error .valueError
  else
    .ok (boolSelect data (startEndMask data.length ns ne),
      startEndMask data.length ns ne)

/-- Comparison `x < high` where `high = none` models the default `np.Inf`. -/
def ltHigh (x : ℚ) : Option ℚ → Bool
  | none => true
  | some h => decide (x < h)

/-- Comparison `x > low` where `low = none` models the default `-np.Inf`. -/
def gtLow (x : ℚ) : Option ℚ → Bool
  | none => true
  | some l => decide (l < x)

/-- The channel extraction `data[:, channels]` of `gate.high_low`; with no
channel selector the whole row is used. -/
def highLowChannels (data : List Row) (chs : Option (List Nat)) : List Row :=
  match chs with
  | none => data
  | some cs => data.map (fun r => cs.map (fun cc => r.getD cc 0))

/-- The mask of `gate.high_low`: row `i` is kept when every selected channel
value is strictly below `high` and strictly above `low`. -/
def highLowMask (data : List Row) (chs : Option (List Nat))
    (hi lo : Option ℚ) : List Bool :=
  (highLowChannels data chs).map
    (fun r => r.all (fun x => ltHigh x hi && gtLow x lo))

/-- Embedding of `gate.high_low`. -/
def high_low (data : List Row) (chs : Option (List Nat)) (hi lo : Option ℚ) :
    List Row × List Bool :=
  (boolSelect data (highLowMask data chs hi lo), highLowMask data chs hi lo)

/-- Insert `x` into `l` in front of the first element `y` with `le x y`. -/
def insertLe {α : Type} (le : α → α → Bool) (x : α) : List α → List α
  | [] => [x]
  | y :: ys => if le x y then x :: y :: ys else y :: insertLe le x ys

/-- Insertion sort by the boolean relation `le`; a deterministic model of
the numpy sorts used by `density2d`. -/
def insSort {α : Type} (le : α → α → Bool) : List α → List α
  | [] => []
  | x :: xs => insertLe le x (insSort le xs)

/-- Embedding of `np.digitize(x, edges)` for increasing `edges`: the number
of edges that are at most `x`. -/
def digitize (edges : List ℚ) (x : ℚ) : Nat :=
  edges.countP (fun e => decide (e ≤ x))

/-- The bin index `np.digitize(x, edges) - 1` after the right-edge fix of
`density2d`: a coordinate exactly equal to the final edge is moved into the
last bin `edges.length - 2`. -/
def binIdx (edges : List ℚ) (x : ℚ) : Int :=
  if edges.getLast? = some x then (edges.length : Int) - 2
  else (digitize edges x : Int) - 1

/-- In-range test of `density2d`: the fixed bin index is neither the
underflow value `-1` nor the overflow value `edges.length - 1`. -/
def inRangeB (edges : List ℚ) (x : ℚ) : Bool :=
  !(decide (binIdx edges x = -1)) &&
    !(decide (binIdx edges x = (edges.length : Int) - 1))

/-- Embedding of the binning rule of `np.histogram2d` on one axis: `x` falls
in cell `i` when `edges[i] <= x < edges[i+1]`, except that the last cell is
closed on both ends; a point outside the edge range falls in no cell. -/
def histBin : List ℚ → ℚ → Option Nat
  | e1 :: e2 :: es, x =>
    match es with
    | [] => if e1 ≤ x ∧ x ≤ e2 then some 0 else none
    | e3 :: es2 =>
      if e1 ≤ x ∧ x < e2 then some 0
      else (histBin (e2 :: e3 :: es2) x).map (fun k => k + 1)
  | _, _ => none

/-- Count of the raw 2D histogram `H` in cell `(i, j)`. -/
def histCount (xe ye : List ℚ) (pts : List (ℚ × ℚ)) (i j : Nat) : Nat :=
  pts.countP (fun p =>
    decide (histBin xe p.1 = some i) && decide (histBin ye p.2 = some j))

/-- The list `Hi[i, j]` of original row indices accumulated in cell `(i, j)`
by the digitize-based loop of `density2d`, in increasing row order. -/
def binList (xe ye : List ℚ) (pts : List (ℚ × ℚ)) (i j : Nat) : List Nat :=
  (List.range pts.length).filter (fun t =>
    inRangeB xe (pts.getD t (0, 0)).1 && inRangeB ye (pts.getD t (0, 0)).2 &&
    decide (binIdx xe (pts.getD t (0, 0)).1 = (i : Int)) &&
    decide (binIdx ye (pts.getD t (0, 0)).2 = (j : Int)))

/-- The in-range event count `N` of `density2d`. -/
def nInRange (xe ye : List ℚ) (pts : List (ℚ × ℚ)) : Nat :=
  pts.countP (fun p => inRangeB xe p.1 && inRangeB ye p.2)

/-- Channel extraction `data[:, channels]` for a 2-channel gate. -/
def d2Points (data : List Row) (c : Nat × Nat) : List (ℚ × ℚ) :=
  data.map (fun r => (r.getD c.1 0, r.getD c.2 0))

/-- Concatenation of the images of `f`, in order. -/
def flatMapD {α β : Type} (f : α → List β) : List α → List β
  | [] => []
  | x :: xs => f x ++ flatMapD f xs

/-- Embedding of `np.cumsum`: inclusive prefix sums. -/
def cumsum : List Nat → List Nat
  | [] => []
  | x :: xs => x :: (cumsum xs).map (fun y => x + y)

/-- Index of the first element satisfying `p`; embedding of
`np.nonzero(...)[0][0]`, which raises when nothing satisfies `p`. -/
def findIdxA {α : Type} (p : α → Bool) : List α → Option Nat
  | [] => none
  | x :: xs => if p x then some 0 else (findIdxA p xs).map (fun k => k + 1)

/-- Separable 2D correlation of the grid `g` (size `nx` by `ny`, constant
zero outside) with the symmetric kernel `w` on both axes; embedding of
`scipy.ndimage.filters.gaussian_filter` with `mode = constant, cval = 0`. -/
def gauss2 (w : List ℚ) (nx ny : Nat) (g : Nat → Nat → ℚ) (i j : Nat) : ℚ :=
  (flatMapD (fun (k1 : Nat) =>
    (List.range w.length).map (fun (k2 : Nat) =>
      let r : Int := ((w.length : Int) - 1) / 2
      let A : Int := (i : Int) + (k1 : Int) - r
      let B : Int := (j : Int) + (k2 : Int) - r
      if 0 ≤ A ∧ A < (nx : Int) ∧ 0 ≤ B ∧ B < (ny : Int) then
        w.getD k1 0 * w.getD k2 0 * g A.toNat B.toNat
      else 0)) (List.range w.length)).sum

/-- The raw histogram flattened in row-major order, `H.ravel()`. -/
def d2vH (xe ye : List ℚ) (pts : List (ℚ × ℚ)) : List Nat :=
  (List.range ((xe.length - 1) * (ye.length - 1))).map
    (fun k => histCount xe ye pts (k / (ye.length - 1)) (k % (ye.length - 1)))

/-- The smoothed histogram flattened in row-major order, `sH.ravel()`. -/
def d2sH (w : List ℚ) (xe ye : List ℚ) (pts : List (ℚ × ℚ)) : List ℚ :=
  (List.range ((xe.length - 1) * (ye.length - 1))).map
    (fun k => gauss2 w (xe.length - 1) (ye.length - 1)
      (fun i j => (histCount xe ye pts i j : ℚ))
      (k / (ye.length - 1)) (k % (ye.length - 1)))

/-- The normalized density `D.ravel()`, i.e. `sH / np.sum(sH)` flattened. -/
def d2vD (w : List ℚ) (xe ye : List ℚ) (pts : List (ℚ × ℚ)) : List ℚ :=
  (d2sH w xe ye pts).map (fun q => q / (d2sH w xe ye pts).sum)

/-- The flat cell indices sorted by descending density,
`np.argsort(vD)[::-1]`. -/
def d2si (w : List ℚ) (xe ye : List ℚ) (pts : List (ℚ × ℚ)) : List Nat :=
  insSort (fun i j =>
      decide ((d2vD w xe ye pts).getD j 0 ≤ (d2vD w xe ye pts).getD i 0))
    (List.range ((xe.length - 1) * (ye.length - 1)))

/-- The raw counts reordered by descending density, `svH`. -/
def d2svH (w : List ℚ) (xe ye : List ℚ) (pts : List (ℚ × ℚ)) : List Nat :=
  (d2si w xe ye pts).map (fun k => (d2vH xe ye pts).getD k 0)

/-- The cumulative counts `csvH = np.cumsum(svH)`. -/
def d2csvH (w : List ℚ) (xe ye : List ℚ) (pts : List (ℚ × ℚ)) : List Nat :=
  cumsum (d2svH w xe ye pts)

/-- The target count `n = int(np.ceil(gate_fraction * N))`. -/
def d2n (f : ℚ) (N : Nat) : Int :=
  Int.ceil (f * (N : ℚ))

/-- The retained row indices before the final sort: the concatenation of the
per-cell index lists of the first `k + 1` cells in descending density
order. -/
def d2kept (w : List ℚ) (xe ye : List ℚ) (pts : List (ℚ × ℚ)) (k : Nat) :
    List Nat :=
  flatMapD (fun bb => binList xe ye pts (bb / (ye.length - 1)) (bb % (ye.length - 1)))
    ((d2si w xe ye pts).take (k + 1))

/-- Output of `density2d`: the source returns `gated_data = data[mask]` and
`mask`, where `mask` is the sorted array of retained row indices. -/
structure Density2dOutput where
  gated_data : List Row
  mask : List Nat
deriving DecidableEq

/-- Embedding of `gate.density2d` (mask path).  `w` is the kernel weight
list of the Gaussian filter for the given `sigma`; `xe`, `ye` are the bin
edges; `f` is `gate_fraction`.  The contour of the `full_output` path is
produced by an external plotting library and is not modelled. -/
def density2d (w : List ℚ) (data : List Row) (c : Nat × Nat)
    (xe ye : List ℚ) (f : ℚ) : Except PyErr Density2dOutput :=
  if data.length ≤ 1 then .error .assertionError
  else
    match findIdxA
        (fun (cc : Nat) => decide (d2n f (nInRange xe ye (d2Points data c)) ≤ (cc : Int)))
        (d2csvH w xe ye (d2Points data c)) with
    | none => .error .indexError
    | some k =>
      .ok ⟨(insSort (fun a b => decide (a ≤ b))
              (d2kept w xe ye (d2Points data c) k)).map (fun t => data.getD t []),
        insSort (fun a b => decide (a ≤ b)) (d2kept w xe ye (d2Points data c) k)⟩

/-- Membership test of `gate.ellipse` for one extracted point `(x0, y0)`:
optionally apply `log10`, subtract the center, rotate through `-theta` and
test the implicit ellipse inequality with `<=`. -/
noncomputable def ellipseMaskEntry (lg : Bool) (cx cy a b th : ℝ)
    (x0 y0 : ℝ) : Bool :=
  let x1 := if lg then Real.logb 10 x0 else x0
  let y1 := if lg then Real.logb 10 y0 else y0
  let xr := (x1 - cx) * Real.cos th + (y1 - cy) * Real.sin th
  let yr := -((x1 - cx) * Real.sin th) + (y1 - cy) * Real.cos th
  decide ((xr / a) ^ 2 + (yr / b) ^ 2 ≤ 1)

/-- One contour sample of `gate.ellipse` at parameter angle `t`: the
axis-aligned ellipse point, rotated through `+theta`, translated by the
center and, in log mode, mapped through `10 ** value`. -/
noncomputable def ellipsePoint (cx cy a b th : ℝ) (lg : Bool) (t : ℝ) :
    ℝ × ℝ :=
  let px := a * Real.cos t
  let py := b * Real.sin t
  let rx := px * Real.cos th - py * Real.sin th + cx
  let ry := px * Real.sin th + py * Real.cos th + cy
  if lg then ((10 : ℝ) ^ rx, (10 : ℝ) ^ ry) else (rx, ry)

/-- Output of `gate.ellipse` with `full_output`. -/
structure EllipseOutput where
  gated_data : List (List ℝ)
  mask : List Bool
  contour : List (ℝ × ℝ)

/-- The mask of `gate.ellipse` over the rows of `data`. -/
noncomputable def ellipseMask (data : List (List ℝ)) (c1 c2 : Nat)
    (cx cy a b th : ℝ) (lg : Bool) : List Bool :=
  (data.map (fun r => (r.getD c1 0, r.getD c2 0))).map
    (fun p => ellipseMaskEntry lg cx cy a b th p.1 p.2)

/-- The contour of `gate.ellipse`: it samples the parameter values
`t = np.linspace(0, 1, 100) * 2 * np.pi`, whose `k`-th entry is
`(k / 99) * 2 * pi`. -/
noncomputable def ellipseContour (cx cy a b th : ℝ) (lg : Bool) :
    List (ℝ × ℝ) :=
  (List.range 100).map
    (fun (k : Nat) => ellipsePoint cx cy a b th lg (((k : ℝ) / 99) * (2 * Real.pi)))

/-- Embedding of `gate.ellipse`. -/
noncomputable def ellipse (data : List (List ℝ)) (c1 c2 : Nat)
    (cx cy a b th : ℝ) (lg : Bool) : EllipseOutput :=
  ⟨boolSelect data (ellipseMask data c1 c2 cx cy a b th lg),
    ellipseMask data c1 c2 cx cy a b th lg,
    ellipseContour cx cy a b th lg⟩

/-- Modelled from the spec: the contour that §4.6 describes, sampling "100
equally spaced angles over `[0, 2π)`", whose `k`-th entry is the ellipse
point at angle `(k / 100) * 2 * pi`.  Stated only to be compared with the
contour that the source computes. -/
noncomputable def specContour100 (cx cy a b th : ℝ) (lg : Bool) :
    List (ℝ × ℝ) :=
  (List.range 100).map
    (fun (k : Nat) => ellipsePoint cx cy a b th lg (((k : ℝ) / 100) * (2 * Real.pi)))

/-- Flattened (row-major) histogram cell of a point: defined when both
coordinates fall in a histogram bin. -/
def histCell (xe ye : List ℚ) (p : ℚ × ℚ) : Option Nat :=
  match histBin xe p.1, histBin ye p.2 with
  | some i, some j => some (i * (ye.length - 1) + j)
  | _, _ => none

/-- Flattened (row-major) digitize-based cell of a point: defined when the
point is in range on both axes. -/
def digCell (xe ye : List ℚ) (p : ℚ × ℚ) : Option Nat :=
  if inRangeB xe p.1 && inRangeB ye p.2 then
    some ((binIdx xe p.1).toNat * (ye.length - 1) + (binIdx ye p.2).toNat)
  else none

/-! ### Generic list lemmas -/

theorem boolSelect_nil {α : Type} (mk : List Bool) :
    boolSelect ([] : List α) mk = [] := by
  simp [boolSelect]

theorem boolSelect_cons {α : Type} (x : α) (xs : List α) (b : Bool)
    (bs : List Bool) :
    boolSelect (x :: xs) (b :: bs) =
      (if b then [x] else []) ++ boolSelect xs bs := by
  cases b <;> simp [boolSelect, List.filterMap_cons]

theorem maskSelectSpec_cons {α : Type} (d x : α) (xs : List α) (b : Bool)
    (bs : List Bool) :
    maskSelectSpec d (x :: xs) (b :: bs) =
      (if b then [x] else []) ++ maskSelectSpec d xs bs := by
  have h2 : ∀ l : List Nat,
      l.filterMap ((fun i => if (b :: bs).getD i false then
          some ((x :: xs).getD i d) else none) ∘ (fun i => i + 1)) =
        l.filterMap (fun i => if bs.getD i false then
          some (xs.getD i d) else none) := by
    intro l
    apply List.filterMap_congr
    intro i _
    simp
  simp only [maskSelectSpec, List.length_cons, List.range_succ_eq_map,
    List.filterMap_cons, List.filterMap_map]
  rw [h2]
  cases b <;> simp

theorem boolSelect_eq_spec {α : Type} (d : α) :
    ∀ (data : List α) (mk : List Bool), mk.length = data.length →
      boolSelect data mk = maskSelectSpec d data mk := by
  intro data
  induction data with
  | nil =>
    intro mk _
    simp [boolSelect, maskSelectSpec]
  | cons x xs ih =>
    intro mk h
    cases mk with
    | nil => simp at h
    | cons b bs =>
      rw [boolSelect_cons, maskSelectSpec_cons, ih bs (by simpa using h)]

theorem boolSelect_all_false {α : Type} :
    ∀ (data : List α) (k : Nat), boolSelect data (List.replicate k false) = [] := by
  intro data
  induction data with
  | nil => intro k; simp [boolSelect]
  | cons x xs ih =>
    intro k
    cases k with
    | zero => simp [boolSelect]
    | succ k => simpa [List.replicate_succ, boolSelect_cons] using ih k

theorem map_getD_range {α : Type} (d : α) :
    ∀ l : List α, (List.range l.length).map (fun t => l.getD t d) = l := by
  intro l
  induction l with
  | nil => simp
  | cons x xs ih =>
    have hcomp : ((fun t => (x :: xs).getD t d) ∘ fun i => i + 1) =
        (fun t => xs.getD t d) := by
      funext t
      simp
    rw [List.length_cons, List.range_succ_eq_map, List.map_cons, List.map_map,
      hcomp, List.getD_cons_zero, ih]

theorem listSumRange (f : Nat → Nat) :
    ∀ m : Nat, ((List.range m).map f).sum = ∑ k ∈ Finset.range m, f k := by
  intro m
  induction m with
  | zero => simp
  | succ m ih => simp [List.range_succ, Finset.sum_range_succ, ih]

theorem flatMapD_append {α β : Type} (f : α → List β) :
    ∀ l1 l2 : List α, flatMapD f (l1 ++ l2) = flatMapD f l1 ++ flatMapD f l2 := by
  intro l1 l2
  induction l1 with
  | nil => simp [flatMapD]
  | cons x xs ih => simp [flatMapD, ih]

theorem mem_flatMapD {α β : Type} (f : α → List β) (a : β) :
    ∀ l : List α, a ∈ flatMapD f l ↔ ∃ x ∈ l, a ∈ f x := by
  intro l
  induction l with
  | nil => simp [flatMapD]
  | cons x xs ih => simp [flatMapD, ih]

theorem flatMapD_take_le {α β : Type} (f : α → List β) :
    ∀ (l : List α) (m : Nat),
      (flatMapD f (l.take m)).length ≤ (flatMapD f l).length := by
  intro l
  induction l with
  | nil => intro m; simp
  | cons x xs ih =>
    intro m
    cases m with
    | zero => simp [flatMapD]
    | succ m =>
      simp only [List.take_succ_cons, flatMapD, List.length_append]
      exact Nat.add_le_add_left (ih m) _

theorem flatMapD_take_mono {α β : Type} (f : α → List β) (l : List α)
    (m1 m2 : Nat) (h : m1 ≤ m2) :
    (flatMapD f (l.take m1)).length ≤ (flatMapD f (l.take m2)).length := by
  have : l.take m1 = (l.take m2).take m1 := by
    rw [List.take_take, Nat.min_eq_left h]
  rw [this]
  exact flatMapD_take_le f (l.take m2) m1

theorem cumsum_length : ∀ l : List Nat, (cumsum l).length = l.length := by
  intro l
  induction l with
  | nil => rfl
  | cons x xs ih => simp [cumsum, ih]

theorem cumsum_getD :
    ∀ (l : List Nat) (k : Nat), k < l.length →
      (cumsum l).getD k 0 = (l.take (k + 1)).sum := by
  intro l
  induction l with
  | nil => intro k hk; simp at hk
  | cons x xs ih =>
    intro k hk
    cases k with
    | zero => simp [cumsum]
    | succ k =>
      have hk2 : k < xs.length := by simpa using hk
      have hk3 : k < (cumsum xs).length := by rw [cumsum_length]; exact hk2
      simp only [cumsum, List.getD_cons_succ, List.take_succ_cons, List.sum_cons]
      rw [List.getD_eq_getElem?_getD, List.getElem?_map,
        List.getElem?_eq_getElem hk3]
      simp only [Option.map_some', Option.getD_some]
      rw [← ih k hk2, List.getD_eq_getElem?_getD, List.getElem?_eq_getElem hk3]
      rfl

theorem cumsum_last (l : List Nat) (h : l ≠ []) :
    (cumsum l).getD (l.length - 1) 0 = l.sum := by
  have hl : 0 < l.length := List.length_pos.2 h
  rw [cumsum_getD l (l.length - 1) (by omega)]
  have : l.length - 1 + 1 = l.length := by omega
  rw [this, List.take_length]

theorem findIdxA_some {α : Type} (p : α → Bool) :
    ∀ (l : List α) (k : Nat), findIdxA p l = some k →
      k < l.length ∧ (∀ d, p (l.getD k d) = true) ∧
        ∀ j, j < k → ∀ d, p (l.getD j d) = false := by
  intro l
  induction l with
  | nil => intro k hk; simp [findIdxA] at hk
  | cons x xs ih =>
    intro k hk
    by_cases hx : p x = true
    · simp [findIdxA, hx] at hk
      subst hk
      exact ⟨by simp, fun d => hx, fun j hj d => by omega⟩
    · rw [findIdxA, if_neg hx] at hk
      rcases Option.map_eq_some'.1 hk with ⟨k0, hk0, rfl⟩
      rcases ih k0 hk0 with ⟨h1, h2, h3⟩
      refine ⟨by simpa using h1, fun d => h2 d, ?_⟩
      intro j hj d
      cases j with
      | zero => simpa using Bool.eq_false_iff.2 hx
      | succ j => simpa using h3 j (by omega) d

theorem findIdxA_none {α : Type} (p : α → Bool) :
    ∀ l : List α, findIdxA p l = none ↔ ∀ a ∈ l, p a = false := by
  intro l
  induction l with
  | nil => simp [findIdxA]
  | cons x xs ih =>
    cases hx : p x with
    | true =>
      rw [findIdxA, if_pos hx]
      constructor
      · intro h
        cases h
      · intro h
        have hf := h x (by simp)
        rw [hx] at hf
        cases hf
    | false =>
      rw [findIdxA, if_neg (by simp [hx]), Option.map_eq_none', ih]
      constructor
      · intro h a ha
        rcases List.mem_cons.1 ha with rfl | ha2
        · exact hx
        · exact h a ha2
      · intro h a ha
        exact h a (List.mem_cons_of_mem x ha)

theorem findIdxA_succeeds {α : Type} (p : α → Bool) (l : List α) (a : α)
    (ha : a ∈ l) (hp : p a = true) : ∃ k, findIdxA p l = some k := by
  cases hfi : findIdxA p l with
  | none =>
    have := (findIdxA_none p l).1 hfi a ha
    rw [hp] at this
    cases this
  | some k => exact ⟨k, rfl⟩

/-! ### Insertion sort lemmas -/

theorem insertLe_perm {α : Type} (le : α → α → Bool) (x : α) :
    ∀ l : List α, (insertLe le x l).Perm (x :: l) := by
  intro l
  induction l with
  | nil => rfl
  | cons y ys ih =>
    by_cases h : le x y
    · simp [insertLe, h]
    · simp only [insertLe, if_neg h]
      exact (ih.cons y).trans (List.Perm.swap x y ys)

theorem insSort_perm {α : Type} (le : α → α → Bool) :
    ∀ l : List α, (insSort le l).Perm l := by
  intro l
  induction l with
  | nil => rfl
  | cons x xs ih => exact (insertLe_perm le x (insSort le xs)).trans (ih.cons x)

theorem insSort_length {α : Type} (le : α → α → Bool) (l : List α) :
    (insSort le l).length = l.length :=
  (insSort_perm le l).length_eq

theorem insSort_mem {α : Type} (le : α → α → Bool) (l : List α) (a : α) :
    a ∈ insSort le l ↔ a ∈ l :=
  (insSort_perm le l).mem_iff

theorem insertLe_chain {α : Type} (le : α → α → Bool)
    (htot : ∀ a b, le a b = false → le b a = true) (x : α) :
    ∀ l : List α, l.Chain' (fun a b => le a b = true) →
      (insertLe le x l).Chain' (fun a b => le a b = true) := by
  intro l
  induction l with
  | nil => intro _; simp [insertLe]
  | cons y ys ih =>
    intro hch
    by_cases hxy : le x y
    · simpa [insertLe, hxy, List.chain'_cons] using hch
    · rw [insertLe, if_neg hxy]
      have hys : ys.Chain' (fun a b => le a b = true) := hch.tail
      refine List.chain'_cons'.2 ⟨?_, ih hys⟩
      intro z hz
      cases ys with
      | nil =>
        simp [insertLe] at hz
        subst hz
        exact htot x y (Bool.eq_false_iff.2 hxy)
      | cons u us =>
        by_cases hxu : le x u
        · simp only [insertLe, if_pos hxu, List.head?_cons, Option.mem_def,
            Option.some_inj] at hz
          subst hz
          exact htot x y (Bool.eq_false_iff.2 hxy)
        · simp only [insertLe, if_neg hxu, List.head?_cons, Option.mem_def,
            Option.some_inj] at hz
          subst hz
          exact (List.chain'_cons.1 hch).1

theorem insSort_chain {α : Type} (le : α → α → Bool)
    (htot : ∀ a b, le a b = false → le b a = true) :
    ∀ l : List α, (insSort le l).Chain' (fun a b => le a b = true) := by
  intro l
  induction l with
  | nil => simp [insSort]
  | cons x xs ih => exact insertLe_chain le htot x (insSort le xs) ih

/-! ### Binning lemmas: digitize, the right-edge fix, and histogram cells -/

theorem getLast?_eq_some_getD {α : Type} (l : List α) (d : α) (h : l ≠ []) :
    l.getLast? = some (l.getD (l.length - 1) d) := by
  have hlen : l.length - 1 < l.length := by
    have := List.length_pos.2 h
    omega
  rw [List.getLast?_eq_getElem?, List.getElem?_eq_getElem hlen,
    List.getD_eq_getElem?_getD, List.getElem?_eq_getElem hlen]
  rfl

theorem pairwise_lt_getD (edges : List ℚ) (hs : edges.Pairwise (· < ·))
    (i j : Nat) (hij : i < j) (hj : j < edges.length) :
    edges.getD i 0 < edges.getD j 0 := by
  have hi : i < edges.length := by omega
  have h1 := List.pairwise_iff_getElem.1 hs i j hi hj hij
  rw [List.getD_eq_getElem?_getD, List.getElem?_eq_getElem hi,
    List.getD_eq_getElem?_getD, List.getElem?_eq_getElem hj]
  exact h1

theorem digitize_le_length (edges : List ℚ) (x : ℚ) :
    digitize edges x ≤ edges.length :=
  List.countP_le_length _

theorem getD_le_iff_lt_digitize (x : ℚ) :
    ∀ edges : List ℚ, edges.Pairwise (· < ·) →
      ∀ i, i < edges.length → (edges.getD i 0 ≤ x ↔ i < digitize edges x) := by
  intro edges
  induction edges with
  | nil =>
    intro _ i hi
    simp at hi
  | cons e1 rest ih =>
    intro hs i hi
    have hs1 := (List.pairwise_cons.1 hs).1
    have hs2 := (List.pairwise_cons.1 hs).2
    by_cases he1 : e1 ≤ x
    · have hd : digitize (e1 :: rest) x = digitize rest x + 1 := by
        simp [digitize, List.countP_cons, he1]
      cases i with
      | zero => simp [he1, hd]
      | succ i =>
        have hi2 : i < rest.length := by simpa using hi
        rw [List.getD_cons_succ, hd, ih hs2 i hi2]
        omega
    · have hxlt : x < e1 := lt_of_not_ge he1
      have hd0 : digitize (e1 :: rest) x = 0 := by
        simp only [digitize, List.countP_eq_zero, decide_eq_true_eq]
        intro a ha
        rcases List.mem_cons.1 ha with rfl | ha2
        · exact he1
        · have := hs1 a ha2
          intro hax
          linarith
      rw [hd0]
      constructor
      · intro hle
        exfalso
        cases i with
        | zero => exact he1 (by simpa using hle)
        | succ i =>
          have hi2 : i < rest.length := by simpa using hi
          have hmem : rest.getD i 0 ∈ rest := by
            rw [List.getD_eq_getElem?_getD, List.getElem?_eq_getElem hi2]
            exact List.getElem_mem hi2
          have := hs1 _ hmem
          rw [List.getD_cons_succ] at hle
          linarith
      · intro h0
        omega

theorem histBin_some_iff (x : ℚ) :
    ∀ edges : List ℚ, edges.Pairwise (· < ·) → ∀ i,
      (histBin edges x = some i ↔
        (i + 2 ≤ edges.length ∧ edges.getD i 0 ≤ x ∧
          (x < edges.getD (i + 1) 0 ∨
            (i + 2 = edges.length ∧ x ≤ edges.getD (i + 1) 0)))) := by
  intro edges
  induction edges with
  | nil =>
    intro _ i
    simp [histBin]
  | cons e1 tl ih =>
    intro hs i
    have hsT := (List.pairwise_cons.1 hs).2
    cases tl with
    | nil =>
      constructor
      · intro h
        simp [histBin] at h
      · rintro ⟨h1, -, -⟩
        simp at h1
    | cons e2 tl2 =>
      cases tl2 with
      | nil =>
        have hb : histBin [e1, e2] x =
            if e1 ≤ x ∧ x ≤ e2 then some 0 else none := rfl
        cases i with
        | zero =>
          constructor
          · intro h
            rw [hb] at h
            by_cases hc : e1 ≤ x ∧ x ≤ e2
            · exact ⟨by simp, by simpa using hc.1,
                Or.inr ⟨by simp, by simpa using hc.2⟩⟩
            · rw [if_neg hc] at h
              cases h
          · rintro ⟨-, h1, h2⟩
            have hx2 : x ≤ e2 := by
              rcases h2 with h2 | ⟨-, h2⟩
              · exact le_of_lt (by simpa using h2)
              · simpa using h2
            rw [hb, if_pos ⟨by simpa using h1, hx2⟩]
        | succ i =>
          constructor
          · intro h
            rw [hb] at h
            by_cases hc : e1 ≤ x ∧ x ≤ e2
            · rw [if_pos hc] at h
              simp at h
            · rw [if_neg hc] at h
              cases h
          · rintro ⟨h1, -, -⟩
            simp at h1
      | cons e3 tl3 =>
        have hb : histBin (e1 :: e2 :: e3 :: tl3) x =
            if e1 ≤ x ∧ x < e2 then some 0
            else (histBin (e2 :: e3 :: tl3) x).map (fun k => k + 1) := rfl
        cases i with
        | zero =>
          constructor
          · intro h
            rw [hb] at h
            split_ifs at h with hc
            · refine ⟨by simp, by simpa using hc.1, Or.inl (by simpa using hc.2)⟩
            · exfalso
              rcases Option.map_eq_some'.1 h with ⟨k, -, hk⟩
              omega
          · rintro ⟨-, h1, h2⟩
            have hx2 : x < e2 := by
              rcases h2 with h2 | ⟨h2, -⟩
              · simpa using h2
              · exfalso
                simp at h2
            rw [hb, if_pos ⟨by simpa using h1, hx2⟩]
        | succ i =>
          by_cases hc : e1 ≤ x ∧ x < e2
          · constructor
            · intro h
              rw [hb, if_pos hc] at h
              simp at h
            · rintro ⟨hlen, hle, -⟩
              exfalso
              rw [List.getD_cons_succ] at hle
              have hiT : i < (e2 :: e3 :: tl3).length := by
                simp at hlen ⊢
                omega
              have hmem : (e2 :: e3 :: tl3).getD i 0 ∈ e2 :: e3 :: tl3 := by
                rw [List.getD_eq_getElem?_getD, List.getElem?_eq_getElem hiT]
                exact List.getElem_mem hiT
              rcases List.mem_cons.1 hmem with heq | hmem2
              · rw [heq] at hle
                linarith [hc.2]
              · have := (List.pairwise_cons.1 hsT).1 _ hmem2
                linarith [hc.2]
          · rw [hb, if_neg hc]
            constructor
            · intro h
              rcases Option.map_eq_some'.1 h with ⟨k, hk, hki⟩
              have hk_i : k = i := by omega
              subst hk_i
              rcases (ih hsT k).1 hk with ⟨h1, h2, h3⟩
              refine ⟨by simp at h1 ⊢; omega,
                by simpa [List.getD_cons_succ] using h2, ?_⟩
              rcases h3 with h3 | ⟨h3a, h3b⟩
              · exact Or.inl (by simpa [List.getD_cons_succ] using h3)
              · refine Or.inr ⟨by simp at h3a ⊢; omega,
                  by simpa [List.getD_cons_succ] using h3b⟩
            · rintro ⟨h1, h2, h3⟩
              have hT : histBin (e2 :: e3 :: tl3) x = some i := by
                refine (ih hsT i).2 ⟨by simp at h1 ⊢; omega,
                  by simpa [List.getD_cons_succ] using h2, ?_⟩
                rcases h3 with h3 | ⟨h3a, h3b⟩
                · exact Or.inl (by simpa [List.getD_cons_succ] using h3)
                · refine Or.inr ⟨by simp at h3a ⊢; omega,
                    by simpa [List.getD_cons_succ] using h3b⟩
              rw [hT]
              rfl

/-- Bridge between the two binning routes of `density2d`: for strictly
increasing edges, `np.histogram2d` places `x` in cell `i` exactly when the
digitize-based loop keeps `x` in range and assigns it the fixed index `i`. -/
theorem histBin_eq_iff_binIdx (x : ℚ) (edges : List ℚ)
    (hs : edges.Pairwise (· < ·)) (hl : 2 ≤ edges.length) (i : Nat) :
    histBin edges x = some i ↔
      (inRangeB edges x = true ∧ binIdx edges x = (i : Int)) := by
  have hne : edges ≠ [] := by
    intro h
    rw [h] at hl
    simp at hl
  have hlast := getLast?_eq_some_getD edges 0 hne
  set L := edges.length with hL
  set eL := edges.getD (L - 1) 0 with heL
  have hS1 := getD_le_iff_lt_digitize x edges hs
  have hdle := digitize_le_length edges x
  by_cases hxl : x = eL
  · -- the coordinate sits exactly on the final edge
    have hcond : edges.getLast? = some x := by rw [hlast, hxl]
    have hbi : binIdx edges x = (L : Int) - 2 := by
      rw [binIdx, if_pos hcond]
    have hir : inRangeB edges x = true := by
      simp only [inRangeB, hbi, Bool.and_eq_true, Bool.not_eq_true',
        decide_eq_false_iff_not]
      omega
    rw [histBin_some_iff x edges hs i]
    constructor
    · rintro ⟨h1, h2, h3⟩
      have hiL : i = L - 2 := by
        rcases h3 with h3 | ⟨h3, -⟩
        · -- x below the next edge is impossible when x is the final edge
          exfalso
          by_cases hi1 : i + 1 < L - 1
          · have := pairwise_lt_getD edges hs (i + 1) (L - 1) hi1 (by omega)
            rw [← heL, ← hxl] at this
            linarith
          · have hi2 : i + 1 = L - 1 := by omega
            rw [hi2, ← heL, ← hxl] at h3
            linarith
        · omega
      refine ⟨hir, ?_⟩
      rw [hbi, hiL]
      omega
    · rintro ⟨-, hbi2⟩
      rw [hbi] at hbi2
      have hiL : i = L - 2 := by omega
      subst hiL
      refine ⟨by omega, ?_, Or.inr ⟨by omega, ?_⟩⟩
      · have := pairwise_lt_getD edges hs (L - 2) (L - 1) (by omega) (by omega)
        rw [← heL, ← hxl] at this
        exact le_of_lt this
      · have h11 : L - 2 + 1 = L - 1 := by omega
        rw [h11, ← heL, ← hxl]
  · -- the coordinate is not on the final edge
    have hcond : ¬ edges.getLast? = some x := by
      rw [hlast]
      intro hcc
      exact hxl (Option.some_inj.1 hcc).symm
    have hbi : binIdx edges x = (digitize edges x : Int) - 1 := by
      rw [binIdx, if_neg hcond]
    set d := digitize edges x with hd
    have hir : inRangeB edges x = true ↔ (1 ≤ d ∧ d ≤ L - 1) := by
      simp only [inRangeB, hbi, Bool.and_eq_true, Bool.not_eq_true',
        decide_eq_false_iff_not]
      omega
    rw [histBin_some_iff x edges hs i]
    constructor
    · rintro ⟨h1, h2, h3⟩
      have hid : i < d := (hS1 i (by omega)).1 h2
      have hdi : d = i + 1 := by
        rcases h3 with h3 | ⟨h3a, h3b⟩
        · have hgle : ¬ edges.getD (i + 1) 0 ≤ x := not_le.2 h3
          have hnd : ¬ (i + 1 < d) := fun hh => hgle ((hS1 (i + 1) (by omega)).2 hh)
          omega
        · have hxle : x < edges.getD (i + 1) 0 := by
            have h11 : i + 1 = L - 1 := by omega
            rw [h11, ← heL]
            rcases lt_or_eq_of_le (by rw [h11, ← heL] at h3b; exact h3b) with hlt | heq
            · exact hlt
            · exact absurd heq hxl
          have hgle : ¬ edges.getD (i + 1) 0 ≤ x := not_le.2 hxle
          have hnd : ¬ (i + 1 < d) := fun hh => hgle ((hS1 (i + 1) (by omega)).2 hh)
          omega
      refine ⟨hir.2 (by omega), ?_⟩
      rw [hbi]
      omega
    · rintro ⟨hir2, hbi2⟩
      rw [hbi] at hbi2
      rcases hir.1 hir2 with ⟨hd1, hd2⟩
      have hdi : i = d - 1 := by omega
      subst hdi
      refine ⟨by omega, ?_, Or.inl ?_⟩
      · exact (hS1 (d - 1) (by omega)).2 (by omega)
      · have hnot : ¬ edges.getD (d - 1 + 1) 0 ≤ x := by
          intro hh
          have := (hS1 (d - 1 + 1) (by omega)).1 hh
          omega
        exact not_le.1 hnot

/-- A histogram cell index is always strictly below the number of bins. -/
theorem histBin_lt (x : ℚ) (edges : List ℚ) (hs : edges.Pairwise (· < ·))
    (i : Nat) (h : histBin edges x = some i) : i < edges.length - 1 := by
  have := ((histBin_some_iff x edges hs i).1 h).1
  omega

/-! ### Conservation of totals between the two grids -/

theorem binIdx_bounds (edges : List ℚ) (x : ℚ) :
    -1 ≤ binIdx edges x ∧ binIdx edges x ≤ (edges.length : Int) - 1 := by
  rw [binIdx]
  by_cases hc : edges.getLast? = some x
  · rw [if_pos hc]
    have hne : edges ≠ [] := by
      intro h
      rw [h] at hc
      cases hc
    have : 1 ≤ edges.length := List.length_pos.2 hne
    omega
  · rw [if_neg hc]
    have h1 := digitize_le_length edges x
    omega

theorem inRangeB_eq_true_iff (edges : List ℚ) (x : ℚ) :
    inRangeB edges x = true ↔
      (binIdx edges x ≠ -1 ∧ binIdx edges x ≠ (edges.length : Int) - 1) := by
  simp only [inRangeB, Bool.and_eq_true, Bool.not_eq_true',
    decide_eq_false_iff_not]

theorem inRangeB_iff_histBin_isSome (x : ℚ) (edges : List ℚ)
    (hs : edges.Pairwise (· < ·)) (hl : 2 ≤ edges.length) :
    inRangeB edges x = true ↔ (histBin edges x).isSome := by
  constructor
  · intro hir
    have hb := binIdx_bounds edges x
    have hir2 := (inRangeB_eq_true_iff edges x).1 hir
    have hge : 0 ≤ binIdx edges x := by omega
    have hsome := (histBin_eq_iff_binIdx x edges hs hl
      (binIdx edges x).toNat).2 ⟨hir, by omega⟩
    rw [hsome]
    rfl
  · intro hi
    rcases Option.isSome_iff_exists.1 hi with ⟨i, hix⟩
    exact ((histBin_eq_iff_binIdx x edges hs hl i).1 hix).1

theorem cell_decomp (ny a b i j : Nat) (hb : b < ny) (hj : j < ny)
    (h : a * ny + b = i * ny + j) : a = i ∧ b = j := by
  have hny : 0 < ny := by omega
  have h1 : (a * ny + b) / ny = a := by
    rw [Nat.mul_comm a ny, Nat.mul_add_div hny, Nat.div_eq_of_lt hb]
    omega
  have h2 : (i * ny + j) / ny = i := by
    rw [Nat.mul_comm i ny, Nat.mul_add_div hny, Nat.div_eq_of_lt hj]
    omega
  have h3 : (a * ny + b) % ny = b := by
    rw [Nat.mul_comm a ny, Nat.mul_add_mod, Nat.mod_eq_of_lt hb]
  have h4 : (i * ny + j) % ny = j := by
    rw [Nat.mul_comm i ny, Nat.mul_add_mod, Nat.mod_eq_of_lt hj]
  constructor
  · rw [← h1, h, h2]
  · rw [← h3, h, h4]

theorem cell_lt (nx ny i j : Nat) (hi : i < nx) (hj : j < ny) :
    i * ny + j < nx * ny :=
  calc i * ny + j < i * ny + ny := by omega
  _ = (i + 1) * ny := by ring
  _ ≤ nx * ny := Nat.mul_le_mul_right ny (by omega)

theorem sum_countP_cells {α : Type} (g : α → Option Nat) (m : Nat)
    (hg : ∀ a k, g a = some k → k < m) :
    ∀ l : List α,
      (∑ k ∈ Finset.range m, l.countP (fun a => decide (g a = some k))) =
        l.countP (fun a => (g a).isSome) := by
  intro l
  induction l with
  | nil => simp
  | cons a l ih =>
    simp only [List.countP_cons]
    rw [Finset.sum_add_distrib, ih]
    congr 1
    cases hga : g a with
    | none => simp [hga]
    | some k0 =>
      have hk0 : k0 ∈ Finset.range m := Finset.mem_range.2 (hg a k0 hga)
      simp only [hga, Option.some_inj, Option.isSome_some, if_true,
        decide_eq_true_eq]
      rw [Finset.sum_ite_eq (Finset.range m) k0 (fun _ => 1), if_pos hk0]

theorem histCell_lt (xe ye : List ℚ) (hsx : xe.Pairwise (· < ·))
    (hsy : ye.Pairwise (· < ·)) (p : ℚ × ℚ) (k : Nat)
    (h : histCell xe ye p = some k) : k < (xe.length - 1) * (ye.length - 1) := by
  rw [histCell] at h
  cases hx : histBin xe p.1 with
  | none => rw [hx] at h; cases h
  | some i =>
    cases hy : histBin ye p.2 with
    | none => rw [hx, hy] at h; cases h
    | some j =>
      rw [hx, hy] at h
      have hk : i * (ye.length - 1) + j = k := Option.some_inj.1 h
      have hi := histBin_lt p.1 xe hsx i hx
      have hj := histBin_lt p.2 ye hsy j hy
      rw [← hk]
      exact cell_lt _ _ _ _ hi hj

theorem histCount_eq_countP_cell (xe ye : List ℚ) (pts : List (ℚ × ℚ))
    (_hsx : xe.Pairwise (· < ·)) (hsy : ye.Pairwise (· < ·))
    (i j : Nat) (_hi : i < xe.length - 1) (hj : j < ye.length - 1) :
    histCount xe ye pts i j =
      pts.countP (fun p =>
        decide (histCell xe ye p = some (i * (ye.length - 1) + j))) := by
  apply List.countP_congr
  intro p _
  simp only [Bool.and_eq_true, decide_eq_true_eq]
  cases hx : histBin xe p.1 with
  | none => simp [histCell, hx]
  | some a =>
    cases hy : histBin ye p.2 with
    | none => simp [histCell, hx, hy]
    | some b =>
      have hb := histBin_lt p.2 ye hsy b hy
      simp only [histCell, hx, hy, Option.some_inj]
      constructor
      · rintro ⟨rfl, rfl⟩
        rfl
      · intro h
        exact cell_decomp (ye.length - 1) a b i j hb hj h

theorem histCell_isSome_iff (xe ye : List ℚ) (hsx : xe.Pairwise (· < ·))
    (hsy : ye.Pairwise (· < ·)) (hlx : 2 ≤ xe.length) (hly : 2 ≤ ye.length)
    (p : ℚ × ℚ) :
    (histCell xe ye p).isSome =
      (inRangeB xe p.1 && inRangeB ye p.2) := by
  rw [Bool.eq_iff_iff, Bool.and_eq_true]
  rw [inRangeB_iff_histBin_isSome p.1 xe hsx hlx,
    inRangeB_iff_histBin_isSome p.2 ye hsy hly]
  cases hx : histBin xe p.1 <;> cases hy : histBin ye p.2 <;>
    simp [histCell, hx, hy]

/-- The total of the raw histogram counts is the in-range count `N` that
the digitize loop accumulates. -/
theorem d2vH_sum_eq_nInRange (xe ye : List ℚ) (pts : List (ℚ × ℚ))
    (hsx : xe.Pairwise (· < ·)) (hsy : ye.Pairwise (· < ·))
    (hlx : 2 ≤ xe.length) (hly : 2 ≤ ye.length) :
    (d2vH xe ye pts).sum = nInRange xe ye pts := by
  have hny : 0 < ye.length - 1 := by omega
  rw [d2vH, listSumRange]
  have hterm : ∀ k ∈ Finset.range ((xe.length - 1) * (ye.length - 1)),
      histCount xe ye pts (k / (ye.length - 1)) (k % (ye.length - 1)) =
        pts.countP (fun p => decide (histCell xe ye p = some k)) := by
    intro k hk
    have hkm := Finset.mem_range.1 hk
    have hdiv : k / (ye.length - 1) < xe.length - 1 :=
      Nat.div_lt_of_lt_mul (by rw [Nat.mul_comm] at hkm; exact hkm)
    have hmod : k % (ye.length - 1) < ye.length - 1 := Nat.mod_lt _ hny
    rw [histCount_eq_countP_cell xe ye pts hsx hsy _ _ hdiv hmod]
    have hrec : k / (ye.length - 1) * (ye.length - 1) + k % (ye.length - 1) = k := by
      rw [Nat.mul_comm]
      exact Nat.div_add_mod k (ye.length - 1)
    rw [hrec]
  rw [Finset.sum_congr rfl hterm,
    sum_countP_cells (histCell xe ye) _ (fun p k h => histCell_lt xe ye hsx hsy p k h) pts]
  rw [nInRange]
  apply List.countP_congr
  intro p _
  exact Bool.eq_iff_iff.mp (histCell_isSome_iff xe ye hsx hsy hlx hly p)

theorem countP_range_getD {α : Type} (d : α) (pts : List α) (q : α → Bool) :
    (List.range pts.length).countP (fun t => q (pts.getD t d)) = pts.countP q := by
  conv_rhs => rw [← map_getD_range d pts]
  rw [List.countP_map]
  rfl

theorem mem_binList_iff (xe ye : List ℚ) (pts : List (ℚ × ℚ)) (i j t : Nat) :
    t ∈ binList xe ye pts i j ↔
      (t < pts.length ∧ inRangeB xe (pts.getD t (0, 0)).1 = true ∧
        inRangeB ye (pts.getD t (0, 0)).2 = true ∧
        binIdx xe (pts.getD t (0, 0)).1 = (i : Int) ∧
        binIdx ye (pts.getD t (0, 0)).2 = (j : Int)) := by
  rw [binList, List.mem_filter, List.mem_range]
  simp only [Bool.and_eq_true, decide_eq_true_eq]
  tauto

theorem digCell_some_lt (xe ye : List ℚ) (p : ℚ × ℚ) (k : Nat)
    (h : digCell xe ye p = some k) : k < (xe.length - 1) * (ye.length - 1) := by
  rw [digCell] at h
  by_cases hc : (inRangeB xe p.1 && inRangeB ye p.2) = true
  · rw [if_pos hc] at h
    have hxy := hc
    rw [Bool.and_eq_true] at hxy
    rcases hxy with ⟨hx, hy⟩
    have hbx := binIdx_bounds xe p.1
    have hby := binIdx_bounds ye p.2
    have hirx := (inRangeB_eq_true_iff xe p.1).1 hx
    have hiry := (inRangeB_eq_true_iff ye p.2).1 hy
    have hxlt : (binIdx xe p.1).toNat < xe.length - 1 := by omega
    have hylt : (binIdx ye p.2).toNat < ye.length - 1 := by omega
    rw [← Option.some_inj.1 h]
    exact cell_lt _ _ _ _ hxlt hylt
  · rw [if_neg hc] at h
    cases h

theorem digCell_isSome_eq (xe ye : List ℚ) (p : ℚ × ℚ) :
    (digCell xe ye p).isSome = (inRangeB xe p.1 && inRangeB ye p.2) := by
  rw [digCell]
  by_cases hc : (inRangeB xe p.1 && inRangeB ye p.2) = true
  · rw [if_pos hc, hc]
    rfl
  · rw [if_neg hc]
    simp only [Option.isSome_none]
    exact (Bool.eq_false_iff.2 hc).symm

theorem binList_eq_filter_digCell (xe ye : List ℚ) (pts : List (ℚ × ℚ))
    (i j : Nat) (hj : j < ye.length - 1) :
    binList xe ye pts i j = (List.range pts.length).filter
      (fun t => decide (digCell xe ye (pts.getD t (0, 0)) =
        some (i * (ye.length - 1) + j))) := by
  rw [binList]
  apply List.filter_congr
  intro t _
  rw [Bool.eq_iff_iff]
  simp only [Bool.and_eq_true, decide_eq_true_eq]
  set p := pts.getD t (0, 0) with hp
  by_cases hx : inRangeB xe p.1 = true
  · by_cases hy2 : inRangeB ye p.2 = true
    · have hbx := binIdx_bounds xe p.1
      have hby := binIdx_bounds ye p.2
      have hirx := (inRangeB_eq_true_iff xe p.1).1 hx
      have hiry := (inRangeB_eq_true_iff ye p.2).1 hy2
      have hcond : (inRangeB xe p.1 && inRangeB ye p.2) = true := by
        rw [hx, hy2]
        rfl
      rw [digCell, if_pos hcond]
      simp only [Option.some_inj]
      constructor
      · rintro ⟨⟨⟨-, -⟩, h1⟩, h2⟩
        have hxt : (binIdx xe p.1).toNat = i := by omega
        have hyt : (binIdx ye p.2).toNat = j := by omega
        rw [hxt, hyt]
      · intro h
        have hylt : (binIdx ye p.2).toNat < ye.length - 1 := by omega
        have := cell_decomp (ye.length - 1) _ _ i j hylt hj h
        exact ⟨⟨⟨hx, hy2⟩, by omega⟩, by omega⟩
    · have hcond : ¬ (inRangeB xe p.1 && inRangeB ye p.2) = true := by
        simp [hy2]
      rw [digCell, if_neg hcond]
      simp [hy2]
  · have hcond : ¬ (inRangeB xe p.1 && inRangeB ye p.2) = true := by
      simp [hx]
    rw [digCell, if_neg hcond]
    simp [hx]

/-- The per-cell index lists also total `N`. -/
theorem binList_length_sum (xe ye : List ℚ) (pts : List (ℚ × ℚ))
    (hly : 2 ≤ ye.length) :
    (∑ k ∈ Finset.range ((xe.length - 1) * (ye.length - 1)),
        (binList xe ye pts (k / (ye.length - 1)) (k % (ye.length - 1))).length) =
      nInRange xe ye pts := by
  have hny : 0 < ye.length - 1 := by omega
  have hterm : ∀ k ∈ Finset.range ((xe.length - 1) * (ye.length - 1)),
      (binList xe ye pts (k / (ye.length - 1)) (k % (ye.length - 1))).length =
        (List.range pts.length).countP
          (fun t => decide (digCell xe ye (pts.getD t (0, 0)) = some k)) := by
    intro k hk
    have hmod : k % (ye.length - 1) < ye.length - 1 := Nat.mod_lt _ hny
    rw [binList_eq_filter_digCell xe ye pts _ _ hmod]
    have hrec : k / (ye.length - 1) * (ye.length - 1) + k % (ye.length - 1) = k := by
      rw [Nat.mul_comm]
      exact Nat.div_add_mod k (ye.length - 1)
    rw [hrec, ← List.countP_eq_length_filter]
  rw [Finset.sum_congr rfl hterm,
    sum_countP_cells (fun t => digCell xe ye (pts.getD t (0, 0))) _
      (fun t k h => digCell_some_lt xe ye _ k h) (List.range pts.length)]
  rw [countP_range_getD (0, 0) pts (fun p => (digCell xe ye p).isSome), nInRange]
  apply List.countP_congr
  intro p _
  exact Bool.eq_iff_iff.mp (digCell_isSome_eq xe ye p)

/-! ### Structure of the density2d selection pipeline -/

theorem d2si_perm (w : List ℚ) (xe ye : List ℚ) (pts : List (ℚ × ℚ)) :
    (d2si w xe ye pts).Perm
      (List.range ((xe.length - 1) * (ye.length - 1))) := by
  rw [d2si]
  exact insSort_perm _ _

theorem d2svH_sum_eq (w : List ℚ) (xe ye : List ℚ) (pts : List (ℚ × ℚ)) :
    (d2svH w xe ye pts).sum = (d2vH xe ye pts).sum := by
  have hmap := (d2si_perm w xe ye pts).map
    (fun k => (d2vH xe ye pts).getD k 0)
  rw [d2svH, hmap.sum_eq]
  have hlen : (d2vH xe ye pts).length = (xe.length - 1) * (ye.length - 1) := by
    rw [d2vH, List.length_map, List.length_range]
  rw [← hlen, map_getD_range]

theorem d2svH_length (w : List ℚ) (xe ye : List ℚ) (pts : List (ℚ × ℚ)) :
    (d2svH w xe ye pts).length = (xe.length - 1) * (ye.length - 1) := by
  rw [d2svH, List.length_map, d2si, insSort_length, List.length_range]

theorem d2csvH_length (w : List ℚ) (xe ye : List ℚ) (pts : List (ℚ × ℚ)) :
    (d2csvH w xe ye pts).length = (xe.length - 1) * (ye.length - 1) := by
  rw [d2csvH, cumsum_length, d2svH_length]

theorem d2csvH_last (w : List ℚ) (xe ye : List ℚ) (pts : List (ℚ × ℚ))
    (hsx : xe.Pairwise (· < ·)) (hsy : ye.Pairwise (· < ·))
    (hlx : 2 ≤ xe.length) (hly : 2 ≤ ye.length) :
    (d2csvH w xe ye pts).getD ((xe.length - 1) * (ye.length - 1) - 1) 0 =
      nInRange xe ye pts := by
  have hm : 0 < (xe.length - 1) * (ye.length - 1) :=
    Nat.mul_pos (by omega) (by omega)
  have hlen := d2svH_length w xe ye pts
  have hne : d2svH w xe ye pts ≠ [] := by
    intro h
    rw [h] at hlen
    simp at hlen
    omega
  have := cumsum_last (d2svH w xe ye pts) hne
  rw [hlen] at this
  rw [d2csvH, this, d2svH_sum_eq, d2vH_sum_eq_nInRange xe ye pts hsx hsy hlx hly]

theorem d2_find_some (w : List ℚ) (xe ye : List ℚ) (pts : List (ℚ × ℚ))
    (f : ℚ) (hsx : xe.Pairwise (· < ·)) (hsy : ye.Pairwise (· < ·))
    (hlx : 2 ≤ xe.length) (hly : 2 ≤ ye.length) (hf1 : f ≤ 1) :
    ∃ k, findIdxA
      (fun (cc : Nat) => decide (d2n f (nInRange xe ye pts) ≤ (cc : Int)))
      (d2csvH w xe ye pts) = some k := by
  have hm : 0 < (xe.length - 1) * (ye.length - 1) :=
    Nat.mul_pos (by omega) (by omega)
  have hlenc := d2csvH_length w xe ye pts
  have hlast := d2csvH_last w xe ye pts hsx hsy hlx hly
  have hidx : (xe.length - 1) * (ye.length - 1) - 1 <
      (d2csvH w xe ye pts).length := by omega
  have hmem : (d2csvH w xe ye pts).getD
      ((xe.length - 1) * (ye.length - 1) - 1) 0 ∈ d2csvH w xe ye pts := by
    rw [List.getD_eq_getElem?_getD, List.getElem?_eq_getElem hidx]
    exact List.getElem_mem hidx
  have hle : d2n f (nInRange xe ye pts) ≤ ((nInRange xe ye pts : Nat) : Int) := by
    rw [d2n]
    apply Int.ceil_le.2
    push_cast
    calc f * ((nInRange xe ye pts : Nat) : ℚ) ≤
        1 * ((nInRange xe ye pts : Nat) : ℚ) :=
          mul_le_mul_of_nonneg_right hf1 (by positivity)
    _ = ((nInRange xe ye pts : Nat) : ℚ) := one_mul _
  apply findIdxA_succeeds _ _ _ hmem
  rw [hlast]
  exact decide_eq_true hle

theorem density2d_ok_of_find (w : List ℚ) (data : List Row) (c : Nat × Nat)
    (xe ye : List ℚ) (f : ℚ) (hd : 1 < data.length) (k : Nat)
    (hfind : findIdxA
        (fun (cc : Nat) => decide (d2n f (nInRange xe ye (d2Points data c)) ≤ (cc : Int)))
        (d2csvH w xe ye (d2Points data c)) = some k) :
    density2d w data c xe ye f = .ok
      ⟨(insSort (fun a b => decide (a ≤ b))
          (d2kept w xe ye (d2Points data c) k)).map (fun t => data.getD t []),
        insSort (fun a b => decide (a ≤ b)) (d2kept w xe ye (d2Points data c) k)⟩ := by
  rw [density2d, if_neg (by omega), hfind]

theorem density2d_ok_of_le_one (w : List ℚ) (data : List Row) (c : Nat × Nat)
    (xe ye : List ℚ) (f : ℚ) (hsx : xe.Pairwise (· < ·))
    (hsy : ye.Pairwise (· < ·)) (hlx : 2 ≤ xe.length) (hly : 2 ≤ ye.length)
    (hd : 1 < data.length) (hf1 : f ≤ 1) :
    ∃ out, density2d w data c xe ye f = .ok out := by
  rcases d2_find_some w xe ye (d2Points data c) f hsx hsy hlx hly hf1 with ⟨k, hk⟩
  exact ⟨_, density2d_ok_of_find w data c xe ye f hd k hk⟩

theorem d2si_sorted (w : List ℚ) (xe ye : List ℚ) (pts : List (ℚ × ℚ)) :
    ((d2si w xe ye pts).map (fun b => (d2vD w xe ye pts).getD b 0)).Pairwise
      (fun a b => b ≤ a) := by
  have htot : ∀ a b : Nat,
      (fun i j => decide ((d2vD w xe ye pts).getD j 0 ≤
        (d2vD w xe ye pts).getD i 0)) a b = false →
      (fun i j => decide ((d2vD w xe ye pts).getD j 0 ≤
        (d2vD w xe ye pts).getD i 0)) b a = true := by
    intro a b hab
    simp only [decide_eq_false_iff_not, not_le] at hab
    simp only [decide_eq_true_eq]
    exact le_of_lt hab
  have hch := insSort_chain _ htot
    (List.range ((xe.length - 1) * (ye.length - 1)))
  have hch2 : ((d2si w xe ye pts).map
      (fun b => (d2vD w xe ye pts).getD b 0)).Chain' (fun a b => b ≤ a) := by
    rw [List.chain'_map, d2si]
    exact hch.imp (fun a b hab => of_decide_eq_true hab)
  haveI : IsTrans ℚ (fun a b : ℚ => b ≤ a) :=
    ⟨fun a b c h1 h2 => le_trans h2 h1⟩
  exact List.chain'_iff_pairwise.1 hch2

theorem mem_d2kept_lt (w : List ℚ) (xe ye : List ℚ) (pts : List (ℚ × ℚ))
    (k t : Nat) (ht : t ∈ d2kept w xe ye pts k) : t < pts.length := by
  rw [d2kept] at ht
  rcases (mem_flatMapD _ t _).1 ht with ⟨bb, -, htb⟩
  exact ((mem_binList_iff xe ye pts _ _ t).1 htb).1

theorem sorted_head_le (edges : List ℚ) (hs : edges.Pairwise (· < ·))
    (a : ℚ) (ha : a ∈ edges) : edges.getD 0 0 ≤ a := by
  cases edges with
  | nil => cases ha
  | cons e rest =>
    rcases List.mem_cons.1 ha with rfl | ha2
    · simp
    · have := (List.pairwise_cons.1 hs).1 a ha2
      simp only [List.getD_cons_zero]
      exact le_of_lt this

theorem sorted_le_last (edges : List ℚ) (hs : edges.Pairwise (· < ·))
    (a : ℚ) (ha : a ∈ edges) : a ≤ edges.getD (edges.length - 1) 0 := by
  rcases List.mem_iff_getElem.1 ha with ⟨idx, hidx, rfl⟩
  have hgd : edges[idx] = edges.getD idx 0 := by
    rw [List.getD_eq_getElem?_getD, List.getElem?_eq_getElem hidx]
    rfl
  rw [hgd]
  by_cases hi : idx = edges.length - 1
  · rw [hi]
  · exact le_of_lt (pairwise_lt_getD edges hs idx (edges.length - 1)
      (by omega) (by omega))

/-! ### Claim theorems -/

/-- Claim C10: for every point set and every `num_start` with
`num_start ≤ N`, calling `start_end` with `num_end = 0` returns an
all-false mask (every event discarded, not just the first `num_start`) and
empty gated data, because the python slice `mask[-0:]` spans the entire
array. -/
theorem start_end_num_end_zero (data : List Row) (ns : Nat)
    (h : ns ≤ data.length) :
    start_end data ns 0 = .ok ([], List.replicate data.length false) := by
  have hmask : startEndMask data.length ns 0 =
      List.replicate data.length false := by
    rw [startEndMask]
    have hfun : ∀ i ∈ List.range data.length,
        (!(decide (i < ns)) && !(decide (negSliceStart data.length 0 ≤ i))) =
          (fun (_ : Nat) => false) i := by
      intro i _
      simp [negSliceStart]
    rw [List.map_congr_left hfun, List.map_const', List.length_range]
  rw [start_end, if_neg (by omega), hmask, boolSelect_all_false]

/-- Witness for C10 at a concrete one-row input. -/
theorem start_end_num_end_zero_witness :
    1 ≤ ([[(1 : ℚ)]] : List Row).length ∧
      start_end [[(1 : ℚ)]] 1 0 = .ok ([], List.replicate 1 false) :=
  ⟨by decide, start_end_num_end_zero [[(1 : ℚ)]] 1 (by decide)⟩

/-- Claim C5: in the binning step of `density2d`, a coordinate exactly
equal to the final bin edge is kept in range and assigned to the last bin
(index `length - 2`); a coordinate strictly below the first edge or
strictly above the final edge is out of range; and a point that is out of
range on either axis appears in no per-cell index list (it is silently
excluded). -/
theorem density2d_binning_edge_cases (edges : List ℚ) (x : ℚ)
    (hs : edges.Pairwise (· < ·)) (hl : 2 ≤ edges.length) :
    ((edges.getLast? = some x →
        inRangeB edges x = true ∧
          binIdx edges x = (edges.length : Int) - 2) ∧
      (x < edges.getD 0 0 → inRangeB edges x = false) ∧
      (∀ y, edges.getLast? = some y → y < x → inRangeB edges x = false)) ∧
    (∀ (ye : List ℚ) (pts : List (ℚ × ℚ)) (t i j : Nat),
        t ∈ binList edges ye pts i j →
          inRangeB edges (pts.getD t (0, 0)).1 = true ∧
          inRangeB ye (pts.getD t (0, 0)).2 = true) := by
  have hne : edges ≠ [] := by
    intro h
    rw [h] at hl
    simp at hl
  refine ⟨⟨?_, ?_, ?_⟩, ?_⟩
  · intro hc
    have hbi : binIdx edges x = (edges.length : Int) - 2 := by
      rw [binIdx, if_pos hc]
    refine ⟨(inRangeB_eq_true_iff edges x).2 ?_, hbi⟩
    rw [hbi]
    constructor <;> omega
  · intro hlt
    have hd0 : digitize edges x = 0 := by
      rw [digitize]
      simp only [List.countP_eq_zero, decide_eq_true_eq]
      intro a ha hax
      have := sorted_head_le edges hs a ha
      linarith
    have hxlast : ¬ edges.getLast? = some x := by
      rw [getLast?_eq_some_getD edges 0 hne]
      intro hcc
      have hxeq : edges.getD (edges.length - 1) 0 = x := Option.some_inj.1 hcc
      have := pairwise_lt_getD edges hs 0 (edges.length - 1) (by omega) (by omega)
      linarith
    have hbi : binIdx edges x = -1 := by
      rw [binIdx, if_neg hxlast, hd0]
      decide
    rw [inRangeB, hbi]
    simp
  · intro y hy hylt
    have hyval : y = edges.getD (edges.length - 1) 0 := by
      rw [getLast?_eq_some_getD edges 0 hne] at hy
      exact (Option.some_inj.1 hy).symm
    have hdL : digitize edges x = edges.length := by
      rw [digitize]
      apply List.countP_eq_length.2
      intro a ha
      simp only [decide_eq_true_eq]
      have := sorted_le_last edges hs a ha
      linarith
    have hxlast : ¬ edges.getLast? = some x := by
      intro hcc
      rw [getLast?_eq_some_getD edges 0 hne] at hcc
      have := Option.some_inj.1 hcc
      linarith [hylt, hyval.symm ▸ this]
    have hbi : binIdx edges x = (edges.length : Int) - 1 := by
      rw [binIdx, if_neg hxlast, hdL]
    rw [inRangeB, hbi]
    simp
  · intro ye pts t i j ht
    have h2 := (mem_binList_iff edges ye pts i j t).1 ht
    exact ⟨h2.2.1, h2.2.2.1⟩

/-- Witness for C5: with edges `[0, 2]`, the coordinate `2` equals the
final edge and is assigned to the last bin. -/
theorem density2d_binning_edge_cases_witness :
    (List.Pairwise (· < ·) [(0 : ℚ), 2] ∧ 2 ≤ ([(0 : ℚ), 2] : List ℚ).length ∧
      ([(0 : ℚ), 2] : List ℚ).getLast? = some 2) ∧
      (inRangeB [(0 : ℚ), 2] 2 = true ∧
        binIdx [(0 : ℚ), 2] 2 = (([(0 : ℚ), 2] : List ℚ).length : Int) - 2) :=
  ⟨⟨by decide, by decide, by decide⟩,
    (density2d_binning_edge_cases [(0 : ℚ), 2] 2 (by decide) (by decide)).1.1
      (by decide)⟩

/-- Claim C4: conservation between the two grids of `density2d`: the sum of
all raw 2D histogram counts equals the in-range point count `N` accumulated
while building the per-bin index lists (points outside the bin edge range
are excluded from both), and the per-bin index lists total the same `N`. -/
theorem density2d_conservation (xe ye : List ℚ) (pts : List (ℚ × ℚ))
    (hsx : xe.Pairwise (· < ·)) (hsy : ye.Pairwise (· < ·))
    (hlx : 2 ≤ xe.length) (hly : 2 ≤ ye.length) :
    (d2vH xe ye pts).sum = nInRange xe ye pts ∧
      (∑ k ∈ Finset.range ((xe.length - 1) * (ye.length - 1)),
          (binList xe ye pts (k / (ye.length - 1)) (k % (ye.length - 1))).length) =
        nInRange xe ye pts :=
  ⟨d2vH_sum_eq_nInRange xe ye pts hsx hsy hlx hly,
    binList_length_sum xe ye pts hly⟩

/-- Witness for C4 at a concrete input with one out-of-range point. -/
theorem density2d_conservation_witness :
    (List.Pairwise (· < ·) [(0 : ℚ), 2] ∧ 2 ≤ ([(0 : ℚ), 2] : List ℚ).length) ∧
      (d2vH [(0 : ℚ), 2] [(0 : ℚ), 2] [((0 : ℚ), (0 : ℚ)), (1, 1), (5, 5)]).sum =
        nInRange [(0 : ℚ), 2] [(0 : ℚ), 2] [((0 : ℚ), (0 : ℚ)), (1, 1), (5, 5)] :=
  ⟨⟨by decide, by decide⟩,
    (density2d_conservation [(0 : ℚ), 2] [(0 : ℚ), 2]
      [((0 : ℚ), (0 : ℚ)), (1, 1), (5, 5)]
      (by decide) (by decide) (by decide) (by decide)).1⟩

/-- Claim C9 (amended): the source has no typed `InternalInconsistency`
check: whenever the cumulative-count search finds no index (the cumulative
raw count never reaches the target `n`), the gate fails with the untyped
IndexError of `np.nonzero(csvH >= n)[0][0]`; on valid inputs with
`gate_fraction <= 1` the shortfall cannot occur and the gate succeeds. -/
theorem density2d_cumsum_shortfall (w : List ℚ) (data : List Row)
    (c : Nat × Nat) (xe ye : List ℚ) (f : ℚ)
    (hsx : xe.Pairwise (· < ·)) (hsy : ye.Pairwise (· < ·))
    (hlx : 2 ≤ xe.length) (hly : 2 ≤ ye.length)
    (hd : 1 < data.length) (hf1 : f ≤ 1) :
    (∃ out, density2d w data c xe ye f = .ok out) ∧
      (∀ g : ℚ, findIdxA (fun (cc : Nat) =>
            decide (d2n g (nInRange xe ye (d2Points data c)) ≤ (cc : Int)))
          (d2csvH w xe ye (d2Points data c)) = none →
        density2d w data c xe ye g = .error .indexError) := by
  refine ⟨density2d_ok_of_le_one w data c xe ye f hsx hsy hlx hly hd hf1, ?_⟩
  intro g hg
  rw [density2d, if_neg (by omega), hg]

/-- Counterexample to C9 as stated: with `gate_fraction = 2` the cumulative
raw count (total 2) never reaches the target 4, and the gate fails with the
untyped IndexError, not with a typed `InternalInconsistency` error. -/
theorem density2d_cumsum_shortfall_counterexample :
    density2d [1] [[0, 0], [1, 1]] (0, 1) [0, 2] [0, 2] 2 =
        .error .indexError ∧
      density2d [1] [[0, 0], [1, 1]] (0, 1) [0, 2] [0, 2] 2 ≠
        .error .internalInconsistency := by
  have h1 : density2d [1] [[0, 0], [1, 1]] (0, 1) [0, 2] [0, 2] 2 =
      .error .indexError := by with_unfolding_all rfl
  refine ⟨h1, ?_⟩
  rw [h1]
  intro hh
  injection hh with hh2
  cases hh2

/-- Witness for C9 (amended) at a concrete valid input. -/
theorem density2d_cumsum_shortfall_witness :
    (List.Pairwise (· < ·) [(0 : ℚ), 2] ∧
        1 < ([[(0 : ℚ), 0], [1, 1]] : List Row).length ∧ (1 : ℚ) ≤ 1) ∧
      ∃ out, density2d [1] [[(0 : ℚ), 0], [1, 1]] (0, 1) [0, 2] [0, 2] 1 =
        .ok out :=
  ⟨⟨by decide, by decide, le_refl 1⟩,
    (density2d_cumsum_shortfall [1] [[(0 : ℚ), 0], [1, 1]] (0, 1) [0, 2] [0, 2] 1
      (by decide) (by decide) (by decide) (by decide) (by decide)
      (le_refl 1)).1⟩

/-- Claim C2 (code bug evidence): at an input whose points all fall outside
the bin range, the smoothed histogram has zero total mass, yet `density2d`
does not fail: it performs the normalizing division anyway and silently
returns an empty gate. -/
theorem density2d_zero_mass_divides_silently :
    (d2sH [1] [0, 1] [0, 1] (d2Points [[10, 10], [20, 20]] (0, 1))).sum = 0 ∧
      density2d [1] [[10, 10], [20, 20]] (0, 1) [0, 1] [0, 1] (65 / 100) =
        .ok ⟨[], []⟩ := by
  constructor
  · with_unfolding_all rfl
  · with_unfolding_all rfl

/-- Counterexample to C1 as stated: at this valid `density2d` input (three
rows, one outside the bin range) the returned mask is the index list
`[0, 1]`, whose length 2 differs from the row count 3: the mask is not a
boolean sequence of length N. -/
theorem gate_mask_contract_counterexample :
    density2d [1] [[0, 0], [1, 1], [5, 5]] (0, 1) [0, 2] [0, 2] (65 / 100) =
        .ok ⟨[[0, 0], [1, 1]], [0, 1]⟩ ∧
      ([0, 1] : List Nat).length ≠
        ([[0, 0], [1, 1], [5, 5]] : List Row).length := by
  constructor
  · with_unfolding_all rfl
  · decide

/-- Claim C1 (amended): `start_end`, `high_low` and `ellipse` return a
boolean mask of length N together with gated data equal to the rows
selected by the mask in original row order; `density2d` instead returns as
its mask the ascending sorted list of retained row indices (whose length is
the number of retained rows, not N), and its gated data is the rows at
those indices in that order. -/
theorem gate_mask_contract :
    (∀ (data : List Row) (ns ne : Nat) (gd : List Row) (mk : List Bool),
        start_end data ns ne = .ok (gd, mk) →
          mk.length = data.length ∧ gd = maskSelectSpec [] data mk) ∧
    (∀ (data : List Row) (chs : Option (List Nat)) (hi lo : Option ℚ),
        (high_low data chs hi lo).2.length = data.length ∧
          (high_low data chs hi lo).1 =
            maskSelectSpec [] data (high_low data chs hi lo).2) ∧
    (∀ (dr : List (List ℝ)) (c1 c2 : Nat) (cx cy a b th : ℝ) (lg : Bool),
        (ellipse dr c1 c2 cx cy a b th lg).mask.length = dr.length ∧
          (ellipse dr c1 c2 cx cy a b th lg).gated_data =
            maskSelectSpec [] dr (ellipse dr c1 c2 cx cy a b th lg).mask) ∧
    (∀ (w : List ℚ) (data : List Row) (c : Nat × Nat) (xe ye : List ℚ)
        (f : ℚ) (out : Density2dOutput),
        density2d w data c xe ye f = .ok out →
          out.mask.Chain' (· ≤ ·) ∧ (∀ t ∈ out.mask, t < data.length) ∧
            out.gated_data = out.mask.map (fun t => data.getD t [])) := by
  refine ⟨?_, ?_, ?_, ?_⟩
  · intro data ns ne gd mk hok
    rw [start_end] at hok
    by_cases hg : data.length < ns + ne
    · rw [if_pos hg] at hok
      cases hok
    · rw [if_neg hg] at hok
      injection hok with hok2
      injection hok2 with hgd hmk
      subst hgd
      subst hmk
      have hlen : (startEndMask data.length ns ne).length = data.length := by
        rw [startEndMask, List.length_map, List.length_range]
      exact ⟨hlen, boolSelect_eq_spec [] data _ hlen⟩
  · intro data chs hi lo
    have hlen : (highLowMask data chs hi lo).length = data.length := by
      rw [highLowMask, List.length_map]
      cases chs with
      | none => rfl
      | some cs => rw [highLowChannels, List.length_map]
    exact ⟨hlen, boolSelect_eq_spec [] data _ hlen⟩
  · intro dr c1 c2 cx cy a b th lg
    have hlen : (ellipseMask dr c1 c2 cx cy a b th lg).length = dr.length := by
      rw [ellipseMask, List.length_map, List.length_map]
    exact ⟨hlen, boolSelect_eq_spec [] dr _ hlen⟩
  · intro w data c xe ye f out hok
    rw [density2d] at hok
    by_cases hg : data.length ≤ 1
    · rw [if_pos hg] at hok
      cases hok
    · rw [if_neg hg] at hok
      cases hfi : findIdxA (fun (cc : Nat) =>
          decide (d2n f (nInRange xe ye (d2Points data c)) ≤ (cc : Int)))
          (d2csvH w xe ye (d2Points data c)) with
      | none =>
        rw [hfi] at hok
        cases hok
      | some k =>
        rw [hfi] at hok
        injection hok with hok2
        subst hok2
        refine ⟨?_, ?_, rfl⟩
        · have hch := insSort_chain (fun a b => decide (a ≤ b))
            (fun a b hab => by
              simp only [decide_eq_false_iff_not, not_le] at hab
              simp only [decide_eq_true_eq]
              omega)
            (d2kept w xe ye (d2Points data c) k)
          exact hch.imp (fun a b hab => of_decide_eq_true hab)
        · intro t ht
          rw [insSort_mem] at ht
          have hlt := mem_d2kept_lt w xe ye (d2Points data c) k t ht
          rw [d2Points, List.length_map] at hlt
          exact hlt

/-- Witness for C1 (amended): a concrete `start_end` call satisfying the
contract. -/
theorem gate_mask_contract_witness :
    start_end [[(1 : ℚ)], [2]] 0 1 = .ok ([[(1 : ℚ)]], [true, false]) ∧
      ([true, false] : List Bool).length = ([[(1 : ℚ)], [2]] : List Row).length ∧
      [[(1 : ℚ)]] = maskSelectSpec [] [[(1 : ℚ)], [2]] [true, false] := by
  have h1 : start_end [[(1 : ℚ)], [2]] 0 1 = .ok ([[(1 : ℚ)]], [true, false]) := by
    with_unfolding_all rfl
  have h2 := gate_mask_contract.1 [[(1 : ℚ)], [2]] 0 1 [[(1 : ℚ)]]
    [true, false] h1
  exact ⟨h1, h2.1, h2.2⟩

/-- Claim C3: on a valid input with `gate_fraction` `f` in (0, 1], the
selection succeeds at a cutoff rank `k`, and, writing `si` for the flat
cell indices sorted by descending smoothed density and `svH` for the raw
counts reordered by `si`: `si` is a permutation of all cells whose mapped
densities are descending; the cumulative raw count of the first `k + 1`
cells reaches `ceil(f * N)` while every shorter prefix stays below it; and
the returned mask is a permutation of the concatenation of the per-cell
index lists of exactly those `k + 1` cells. -/
theorem density2d_minimal_prefix (w : List ℚ) (data : List Row)
    (c : Nat × Nat) (xe ye : List ℚ) (f : ℚ)
    (hsx : xe.Pairwise (· < ·)) (hsy : ye.Pairwise (· < ·))
    (hlx : 2 ≤ xe.length) (hly : 2 ≤ ye.length)
    (hd : 1 < data.length) (_hf0 : 0 < f) (hf1 : f ≤ 1) :
    ∃ k out,
      findIdxA (fun (cc : Nat) =>
          decide (d2n f (nInRange xe ye (d2Points data c)) ≤ (cc : Int)))
        (d2csvH w xe ye (d2Points data c)) = some k ∧
      density2d w data c xe ye f = .ok out ∧
      (d2si w xe ye (d2Points data c)).Perm
        (List.range ((xe.length - 1) * (ye.length - 1))) ∧
      ((d2si w xe ye (d2Points data c)).map
          (fun bb => (d2vD w xe ye (d2Points data c)).getD bb 0)).Pairwise
        (fun q1 q2 => q2 ≤ q1) ∧
      Int.ceil (f * (nInRange xe ye (d2Points data c) : ℚ)) ≤
        ((((d2svH w xe ye (d2Points data c)).take (k + 1)).sum : Nat) : Int) ∧
      (∀ j, j < k →
        ((((d2svH w xe ye (d2Points data c)).take (j + 1)).sum : Nat) : Int) <
          Int.ceil (f * (nInRange xe ye (d2Points data c) : ℚ))) ∧
      out.mask.Perm (d2kept w xe ye (d2Points data c) k) ∧
      d2kept w xe ye (d2Points data c) k =
        flatMapD (fun bb => binList xe ye (d2Points data c)
            (bb / (ye.length - 1)) (bb % (ye.length - 1)))
          ((d2si w xe ye (d2Points data c)).take (k + 1)) := by
  obtain ⟨k, hk⟩ := d2_find_some w xe ye (d2Points data c) f hsx hsy hlx hly hf1
  obtain ⟨hklen, hpk, hpj⟩ := findIdxA_some _ _ k hk
  have hklen2 : k < (d2svH w xe ye (d2Points data c)).length := by
    rw [d2svH_length]
    rw [d2csvH_length] at hklen
    exact hklen
  have hgetD : (d2csvH w xe ye (d2Points data c)).getD k 0 =
      ((d2svH w xe ye (d2Points data c)).take (k + 1)).sum := by
    rw [d2csvH]
    exact cumsum_getD _ k hklen2
  refine ⟨k, _, hk, density2d_ok_of_find w data c xe ye f hd k hk,
    d2si_perm w xe ye _, d2si_sorted w xe ye _, ?_, ?_, ?_, rfl⟩
  · have h1 := of_decide_eq_true (hpk 0)
    rw [hgetD] at h1
    exact h1
  · intro j hj
    have hjlen : j < (d2svH w xe ye (d2Points data c)).length := by omega
    have h2 := hpj j hj 0
    simp only [decide_eq_false_iff_not] at h2
    have hgetDj : (d2csvH w xe ye (d2Points data c)).getD j 0 =
        ((d2svH w xe ye (d2Points data c)).take (j + 1)).sum := by
      rw [d2csvH]
      exact cumsum_getD _ j hjlen
    rw [hgetDj, d2n] at h2
    omega
  · exact insSort_perm _ _

/-- Witness for C3 at a concrete valid input. -/
theorem density2d_minimal_prefix_witness :
    ((0 : ℚ) < 65 / 100 ∧ (65 : ℚ) / 100 ≤ 1 ∧
        List.Pairwise (· < ·) [(0 : ℚ), 2]) ∧
      ∃ k out,
        findIdxA (fun (cc : Nat) => decide (d2n (65 / 100)
            (nInRange [0, 2] [0, 2]
              (d2Points [[0, 0], [1, 1], [5, 5]] (0, 1))) ≤ (cc : Int)))
          (d2csvH [1] [0, 2] [0, 2]
            (d2Points [[0, 0], [1, 1], [5, 5]] (0, 1))) = some k ∧
        density2d [1] [[0, 0], [1, 1], [5, 5]] (0, 1) [0, 2] [0, 2]
          (65 / 100) = .ok out := by
  refine ⟨⟨by norm_num, by norm_num, by decide⟩, ?_⟩
  obtain ⟨k, out, h1, h2, -, -, -, -, -, -⟩ :=
    density2d_minimal_prefix [1] [[0, 0], [1, 1], [5, 5]] (0, 1) [0, 2] [0, 2]
      (65 / 100) (by decide) (by decide) (by decide) (by decide) (by decide)
      (by norm_num) (by norm_num)
  exact ⟨k, out, h1, h2⟩

/-- Claim C6: for a fixed valid input (same points, channels, bins and
kernel), raising the gate fraction from `f1` to `f2 > f1` (both in (0, 1])
never decreases the number of retained points. -/
theorem density2d_fraction_monotone (w : List ℚ) (data : List Row)
    (c : Nat × Nat) (xe ye : List ℚ) (f1 f2 : ℚ)
    (hsx : xe.Pairwise (· < ·)) (hsy : ye.Pairwise (· < ·))
    (hlx : 2 ≤ xe.length) (hly : 2 ≤ ye.length)
    (hd : 1 < data.length) (_hf0 : 0 < f1) (h12 : f1 < f2) (hf2 : f2 ≤ 1) :
    ∃ o1 o2, density2d w data c xe ye f1 = .ok o1 ∧
      density2d w data c xe ye f2 = .ok o2 ∧
      o1.mask.length ≤ o2.mask.length := by
  obtain ⟨k1, hk1⟩ := d2_find_some w xe ye (d2Points data c) f1 hsx hsy hlx hly
    (le_of_lt (lt_of_lt_of_le h12 hf2))
  obtain ⟨k2, hk2⟩ := d2_find_some w xe ye (d2Points data c) f2 hsx hsy hlx hly hf2
  have hn12 : d2n f1 (nInRange xe ye (d2Points data c)) ≤
      d2n f2 (nInRange xe ye (d2Points data c)) := by
    rw [d2n, d2n]
    exact Int.ceil_le_ceil
      (mul_le_mul_of_nonneg_right (le_of_lt h12) (by positivity))
  have hk12 : k1 ≤ k2 := by
    by_contra hcon
    push_neg at hcon
    obtain ⟨-, -, hpj1⟩ := findIdxA_some _ _ k1 hk1
    obtain ⟨-, hpk2, -⟩ := findIdxA_some _ _ k2 hk2
    have hfalse := hpj1 k2 hcon 0
    have h1 := of_decide_eq_true (hpk2 0)
    simp only [decide_eq_false_iff_not] at hfalse
    exact hfalse (le_trans hn12 h1)
  refine ⟨_, _, density2d_ok_of_find w data c xe ye f1 hd k1 hk1,
    density2d_ok_of_find w data c xe ye f2 hd k2 hk2, ?_⟩
  show (insSort (fun a b => decide (a ≤ b))
      (d2kept w xe ye (d2Points data c) k1)).length ≤
    (insSort (fun a b => decide (a ≤ b))
      (d2kept w xe ye (d2Points data c) k2)).length
  rw [insSort_length, insSort_length, d2kept, d2kept]
  exact flatMapD_take_mono _ _ _ _ (by omega)

/-- Witness for C6 at a concrete valid input. -/
theorem density2d_fraction_monotone_witness :
    ((0 : ℚ) < 1 / 2 ∧ (1 : ℚ) / 2 < 1 ∧ (1 : ℚ) ≤ 1) ∧
      ∃ o1 o2, density2d [1] [[(0 : ℚ), 0], [1, 1]] (0, 1) [0, 2] [0, 2]
          (1 / 2) = .ok o1 ∧
        density2d [1] [[(0 : ℚ), 0], [1, 1]] (0, 1) [0, 2] [0, 2] 1 = .ok o2 ∧
        o1.mask.length ≤ o2.mask.length :=
  ⟨⟨by norm_num, by norm_num, le_refl 1⟩,
    density2d_fraction_monotone [1] [[(0 : ℚ), 0], [1, 1]] (0, 1) [0, 2] [0, 2]
      (1 / 2) 1 (by decide) (by decide) (by decide) (by decide) (by decide)
      (by norm_num) (by norm_num) (le_refl 1)⟩

/-- Claim C8: for the ellipse gate with theta = 0 and no log transform, a
point exactly on the boundary at `(center_x + a, center_y)` is included in
the mask (the membership test uses `<=`), and a point at
`(center_x + 1.001 * a, center_y)` is excluded. -/
theorem ellipse_boundary_membership (cx cy a b : ℝ) (ha : 0 < a)
    (_hb : 0 < b) :
    (ellipse [[cx + a, cy], [cx + 1.001 * a, cy]] 0 1 cx cy a b 0
      false).mask = [true, false] := by
  show ellipseMask [[cx + a, cy], [cx + 1.001 * a, cy]] 0 1 cx cy a b 0
    false = [true, false]
  rw [ellipseMask]
  simp only [List.map_cons, List.map_nil, List.getD_cons_zero,
    List.getD_cons_succ]
  have h1 : ellipseMaskEntry false cx cy a b 0 (cx + a) cy = true := by
    rw [ellipseMaskEntry]
    simp only [Bool.false_eq_true, if_false, Real.cos_zero, Real.sin_zero,
      decide_eq_true_eq, mul_one, mul_zero, add_zero, sub_self, zero_mul,
      neg_zero, zero_add, add_sub_cancel_left, zero_div]
    rw [div_self (ne_of_gt ha)]
    norm_num
  have h2 : ellipseMaskEntry false cx cy a b 0 (cx + 1.001 * a) cy = false := by
    rw [ellipseMaskEntry]
    simp only [Bool.false_eq_true, if_false, Real.cos_zero, Real.sin_zero,
      decide_eq_false_iff_not, mul_one, mul_zero, add_zero, sub_self,
      zero_mul, neg_zero, zero_add, add_sub_cancel_left, zero_div]
    rw [mul_div_assoc, div_self (ne_of_gt ha), mul_one]
    norm_num
  rw [h1, h2]

/-- Witness for C8 on the unit circle. -/
theorem ellipse_boundary_membership_witness :
    (0 : ℝ) < 1 ∧
      (ellipse [[(0 : ℝ) + 1, 0], [0 + 1.001 * 1, 0]] 0 1 0 0 1 1 0
        false).mask = [true, false] :=
  ⟨by norm_num, ellipse_boundary_membership 0 0 1 1 (by norm_num) (by norm_num)⟩

/-- Claim C7 (amended): with full output the ellipse contour has 100
points; its `k`-th point is the ellipse point at angle `(k / 99) * 2 * pi`
(rotated by `+theta`, translated by `+center`, exponentiated in log mode),
so the 100 angles span the closed interval `[0, 2 pi]` with step
`2 pi / 99` and the last contour point repeats the first. -/
theorem ellipse_contour_samples (data : List (List ℝ)) (c1 c2 : Nat)
    (cx cy a b th : ℝ) (lg : Bool) :
    (ellipse data c1 c2 cx cy a b th lg).contour.length = 100 ∧
      (∀ k, k < 100 →
        (ellipse data c1 c2 cx cy a b th lg).contour.getD k (0, 0) =
          ellipsePoint cx cy a b th lg (((k : ℝ) / 99) * (2 * Real.pi))) ∧
      (ellipse data c1 c2 cx cy a b th lg).contour.getD 99 (0, 0) =
        (ellipse data c1 c2 cx cy a b th lg).contour.getD 0 (0, 0) := by
  have hgetD : ∀ k, k < 100 →
      (ellipseContour cx cy a b th lg).getD k (0, 0) =
        ellipsePoint cx cy a b th lg (((k : ℝ) / 99) * (2 * Real.pi)) := by
    intro k hk
    rw [ellipseContour, List.getD_eq_getElem?_getD, List.getElem?_map,
      List.getElem?_range hk]
    rfl
  refine ⟨?_, hgetD, ?_⟩
  · show (ellipseContour cx cy a b th lg).length = 100
    rw [ellipseContour, List.length_map, List.length_range]
  show (ellipseContour cx cy a b th lg).getD 99 (0, 0) =
    (ellipseContour cx cy a b th lg).getD 0 (0, 0)
  rw [hgetD 99 (by norm_num), hgetD 0 (by norm_num)]
  have h99 : (((99 : Nat) : ℝ) / 99) * (2 * Real.pi) = 2 * Real.pi := by
    norm_num
  have h0 : (((0 : Nat) : ℝ) / 99) * (2 * Real.pi) = 0 := by
    norm_num
  rw [h99, h0, ellipsePoint, ellipsePoint]
  simp [Real.cos_two_pi, Real.sin_two_pi]

/-- Witness for C7 (amended) at index 99. -/
theorem ellipse_contour_samples_witness :
    99 < 100 ∧
      (ellipse [] 0 1 (0 : ℝ) 0 1 1 0 false).contour.getD 99 (0, 0) =
        ellipsePoint 0 0 1 1 0 false (((99 : Nat) : ℝ) / 99 * (2 * Real.pi)) :=
  ⟨by norm_num,
    (ellipse_contour_samples [] 0 1 0 0 1 1 0 false).2.1 99 (by norm_num)⟩

/-- Counterexample to C7 as stated: for the unit circle, the contour the
source computes differs from the contour built from 100 equally spaced
angles over the half-open interval `[0, 2 pi)`: the source samples
`t = (k / 99) * 2 * pi`, so its last point sits at angle `2 pi` with second
coordinate `sin (2 pi) = 0`, while the half-open sampling puts the last
point at angle `(99 / 50) * pi`, whose sine is not zero. -/
theorem ellipse_contour_angles_counterexample :
    (ellipse [] 0 1 (0 : ℝ) 0 1 1 0 false).contour ≠
      specContour100 0 0 1 1 0 false := by
  intro heq
  have h99 := congrArg (fun l => (l.getD 99 ((0 : ℝ), (0 : ℝ))).2) heq
  simp only at h99
  have hL : (ellipse [] 0 1 (0 : ℝ) 0 1 1 0 false).contour.getD 99 (0, 0) =
      ellipsePoint 0 0 1 1 0 false (((99 : Nat) : ℝ) / 99 * (2 * Real.pi)) := by
    show (ellipseContour (0 : ℝ) 0 1 1 0 false).getD 99 (0, 0) = _
    rw [ellipseContour, List.getD_eq_getElem?_getD, List.getElem?_map,
      List.getElem?_range (by norm_num : (99 : Nat) < 100)]
    rfl
  have hR : (specContour100 (0 : ℝ) 0 1 1 0 false).getD 99 (0, 0) =
      ellipsePoint 0 0 1 1 0 false (((99 : Nat) : ℝ) / 100 * (2 * Real.pi)) := by
    rw [specContour100, List.getD_eq_getElem?_getD, List.getElem?_map,
      List.getElem?_range (by norm_num : (99 : Nat) < 100)]
    rfl
  rw [hL, hR] at h99
  have hsimpL : (ellipsePoint 0 0 1 1 0 false
      (((99 : Nat) : ℝ) / 99 * (2 * Real.pi))).2 = 0 := by
    have ht : ((99 : Nat) : ℝ) / 99 * (2 * Real.pi) = 2 * Real.pi := by
      norm_num
    rw [ht, ellipsePoint]
    simp [Real.sin_two_pi]
  have hsimpR : (ellipsePoint 0 0 1 1 0 false
      (((99 : Nat) : ℝ) / 100 * (2 * Real.pi))).2 =
      Real.sin (((99 : Nat) : ℝ) / 100 * (2 * Real.pi)) := by
    rw [ellipsePoint]
    simp
  rw [hsimpL, hsimpR] at h99
  have hsin := h99.symm
  rw [Real.sin_eq_zero_iff] at hsin
  obtain ⟨n, hn⟩ := hsin
  have hpi := Real.pi_ne_zero
  have hn2 : (n : ℝ) * Real.pi = (99 / 50) * Real.pi := by
    rw [hn]
    push_cast
    ring
  have hn3 : (n : ℝ) = 99 / 50 := mul_right_cancel₀ hpi hn2
  have hn5 : ((n * 50 : ℤ) : ℝ) = ((99 : ℤ) : ℝ) := by
    push_cast
    rw [hn3]
    norm_num
  have hn6 : (n * 50 : ℤ) = 99 := Int.cast_injective hn5
  omega

end FlowCal
